import Mathlib

/-!
Verification of the environment-hierarchy core of the `envkit` repository:
the `EnvironmentResolver` / `EnvironmentManager` classes (merge engine,
hierarchy validator, promotion facade) and the `fingerprintSpec` function.

The TypeScript data model (`src/types.ts`) is embedded as Lean structures;
TS optional fields (`field?: T`) become `Option` fields.  The resolver's
private `Map<string, EnvironmentSpec>` is embedded as an insertion-ordered
association list with JS-`Map` update semantics (`mapSet` keeps the original
position of an existing key, otherwise appends).
-/

namespace Envkit

/-- Embeds the TS type `SecretProvider` from `src/types.ts`. -/
structure SecretProvider where
  provider : String
  path : String
  rotationDays : Option Int := none
deriving DecidableEq, Repr

/-- Embeds the TS type `Toolchain` from `src/types.ts`. -/
structure Toolchain where
  name : String
  version : String
  cacheKey : Option String := none
deriving DecidableEq, Repr

/-- Embeds the TS type `BackupConfig` from `src/types.ts`. -/
structure BackupConfig where
  enabled : Bool
  retentionDays : Int
  schedule : Option String := none
  regions : Option (List String) := none
deriving DecidableEq, Repr

/-- Embeds the anonymous `overrides` object type of `EnvironmentHierarchy`
(`src/types.ts`). -/
structure Overrides where
  description : Option String := none
  secrets : Option (List SecretProvider) := none
  toolchains : Option (List Toolchain) := none
  policies : Option (List String) := none
  checks : Option (List String) := none
deriving DecidableEq, Repr

/-- Embeds the TS type `EnvironmentHierarchy` from `src/types.ts`.
The TS field `extends` is a Lean keyword, hence the trailing underscore. -/
structure EnvironmentHierarchy where
  name : String
  extends_ : Option String := none
  overrides : Option Overrides := none
deriving DecidableEq, Repr

/-- Embeds the TS type `EnvironmentSpec` from `src/types.ts`. -/
structure EnvironmentSpec where
  name : String
  description : Option String := none
  secrets : Option (List SecretProvider) := none
  toolchains : Option (List Toolchain) := none
  policies : Option (List String) := none
  checks : Option (List String) := none
  environments : Option (List EnvironmentHierarchy) := none
  region : Option String := none
  backup : Option BackupConfig := none
deriving DecidableEq, Repr

/-- The resolver's private `Map<string, EnvironmentSpec>`, kept in insertion
order as JS `Map` iteration does. -/
abbrev Registry := List (String × EnvironmentSpec)

/-- JS `Map.prototype.set`: update in place if the key exists (keeping its
position), otherwise append. -/
def mapSet (m : Registry) (k : String) (v : EnvironmentSpec) : Registry :=
  if m.any (fun p => p.1 == k) then
    m.map (fun p => if p.1 == k then (k, v) else p)
  else
    m ++ [(k, v)]

/-- JS `Map.prototype.get`: the value at the first (unique) matching key. -/
def mapGet (m : Registry) (k : String) : Option EnvironmentSpec :=
  (m.find? (fun p => p.1 == k)).map (fun p => p.2)

/-- Embeds `EnvironmentResolver.getHierarchyParentSpec`.  The JS guard
`if (!hierarchy.extends)` is a truthiness test, so an empty-string
`extends` also falls back to the base spec; a missing registry entry falls
back via `?? baseSpec`. -/
def getHierarchyParentSpec (baseSpec : EnvironmentSpec) (environments : Registry)
    (hierarchy : EnvironmentHierarchy) : EnvironmentSpec :=
  match hierarchy.extends_ with
  | none => baseSpec
  | some e => if e = "" then baseSpec else (mapGet environments e).getD baseSpec

/-- Embeds `EnvironmentResolver.mergeHierarchySpec`: shallow copy of the
parent with `name` replaced, then each of the five override fields replaces
the copied field exactly when it is defined (`!== undefined`). -/
def mergeHierarchySpec (parentSpec : EnvironmentSpec)
    (hierarchy : EnvironmentHierarchy) : EnvironmentSpec :=
  let resolved : EnvironmentSpec := { parentSpec with name := hierarchy.name }
  match hierarchy.overrides with
  | none => resolved
  | some o =>
      { resolved with
        description := match o.description with
          | some d => some d
          | none => resolved.description
        secrets := match o.secrets with
          | some s => some s
          | none => resolved.secrets
        toolchains := match o.toolchains with
          | some t => some t
          | none => resolved.toolchains
        policies := match o.policies with
          | some p => some p
          | none => resolved.policies
        checks := match o.checks with
          | some c => some c
          | none => resolved.checks }

/-- Embeds `EnvironmentResolver.resolveHierarchy`, with the resolver's
current registry passed explicitly. -/
def resolveHierarchy (baseSpec : EnvironmentSpec) (environments : Registry)
    (hierarchy : EnvironmentHierarchy) : EnvironmentSpec :=
  mergeHierarchySpec (getHierarchyParentSpec baseSpec environments hierarchy) hierarchy

/-- Loop body of `buildEnvironmentHierarchy`: resolve one layer against the
registry built so far and store it under the layer's name. -/
def buildStep (baseSpec : EnvironmentSpec) (envs : Registry)
    (hierarchy : EnvironmentHierarchy) : Registry :=
  mapSet envs hierarchy.name (resolveHierarchy baseSpec envs hierarchy)

/-- Embeds `EnvironmentResolver.buildEnvironmentHierarchy` (run by the
constructor): seed the registry with the base spec under its own name, then
resolve and store each layer in declaration order. -/
def buildEnvironmentHierarchy (baseSpec : EnvironmentSpec)
    (hierarchies : List EnvironmentHierarchy) : Registry :=
  hierarchies.foldl (buildStep baseSpec) (mapSet [] baseSpec.name baseSpec)

/-- Embeds `EnvironmentResolver.getEnvironment`. -/
def getEnvironment (m : Registry) (name : String) : Option EnvironmentSpec :=
  mapGet m name

/-- Embeds `EnvironmentResolver.listEnvironments`. -/
def listEnvironments (m : Registry) : List String :=
  m.map (fun p => p.1)

/-- Embeds `EnvironmentResolver.getAllEnvironments`. -/
def getAllEnvironments (m : Registry) : List EnvironmentSpec :=
  m.map (fun p => p.2)

/-- Embeds the `while (current)` walk inside `validateHierarchy` for one
starting registry entry.  `specEnvs` is the starting entry's own
`spec.environments` list (the closure variable `spec` in the JS loop) and
`keyName` the registry key used in the error message.  The JS loop always
terminates: each pass inserts a fresh name into `visited`, and every
`current` is either the starting spec or one of the at most `m.length`
registry values, so after `m.length + 2` passes a name would have to
repeat; the fuel argument is set to that bound at the call site, so the
fuel never runs out and `walkChain` computes exactly what the loop does. -/
def walkChain (m : Registry) (specEnvs : List EnvironmentHierarchy) (keyName : String) :
    Nat → List String → EnvironmentSpec → Option String
  | 0, _, _ => none
  | fuel + 1, visited, current =>
    if visited.contains current.name then
      some ("Circular dependency detected in environment: " ++ keyName)
    else
      match specEnvs.find? (fun h => h.name == current.name) with
      | some h =>
        match h.extends_ with
        | some e =>
          if e = "" then none
          else
            match mapGet m e with
            | some nxt => walkChain m specEnvs keyName fuel (current.name :: visited) nxt
            | none => none
        | none => none
      | none => none

/-- Embeds `EnvironmentResolver.validateHierarchy`: walk every registry
entry, collect one circular-dependency error per entry whose chain revisits
a name, and report validity as `errors.length === 0`. -/
def validateHierarchy (m : Registry) : Bool × List String :=
  let errors := m.foldl
    (fun errs entry =>
      match walkChain m ((entry.2).environments.getD []) entry.1 (m.length + 2) [] entry.2 with
      | some e => errs ++ [e]
      | none => errs)
    []
  (errors.length == 0, errors)

/-- Embeds the `EnvironmentManager` constructor, which builds a resolver
from the base spec and its declared `environments` (an `undefined` list
selects the constructor's `[]` default). -/
def managerRegistry (baseSpec : EnvironmentSpec) : Registry :=
  buildEnvironmentHierarchy baseSpec (baseSpec.environments.getD [])

/-- Embeds `EnvironmentManager.promoteEnvironment` in state-passing style:
the manager's registry is threaded through unchanged (every access the
method makes to the manager state is a read), and the synthesized layer is
resolved by a fresh resolver seeded with the target environment. -/
def promoteEnvironment (m : Registry) (fromName toName : String) :
    Option EnvironmentSpec × Registry :=
  match getEnvironment m fromName, getEnvironment m toName with
  | some sourceEnvironment, some targetEnvironment =>
      let promotionHierarchy : EnvironmentHierarchy :=
        { name := fromName ++ "-to-" ++ toName
          extends_ := some toName
          overrides := some
            { description := none
              secrets := sourceEnvironment.secrets
              toolchains := sourceEnvironment.toolchains
              policies := none
              checks := none } }
      let freshRegistry := buildEnvironmentHierarchy targetEnvironment [promotionHierarchy]
      (getEnvironment freshRegistry promotionHierarchy.name, m)
  | _, _ => (none, m)

/-! ## The fingerprint function (`src/config.ts`)

`fingerprintSpec` serializes the runtime spec object with
`JSON.stringify(spec, Object.keys(spec).sort())` and hashes the result with
SHA-256, rendered as lowercase hex.  A runtime JS object is embedded as a
`JValue`; an object's member list is its own enumerable properties in
insertion order. -/

/-- A runtime JavaScript value as consumed by `JSON.stringify` (only the
shapes a parsed `EnvironmentSpec` can contain). -/
inductive JValue where
  | str : String → JValue
  | num : Int → JValue
  | bool : Bool → JValue
  | null : JValue
  | arr : List JValue → JValue
  | obj : List (String × JValue) → JValue

/-- Lexicographic order on code points; on the ASCII keys of an
`EnvironmentSpec` this coincides with the UTF-16 code-unit order used by
`Array.prototype.sort()` with no comparator. -/
def lexLe : List Char → List Char → Bool
  | [], _ => true
  | _ :: _, [] => false
  | a :: as, b :: bs =>
    if a.toNat < b.toNat then true
    else if b.toNat < a.toNat then false
    else lexLe as bs

/-- String comparison used to model the default `Array.prototype.sort()`. -/
def strLeB (a b : String) : Bool :=
  lexLe a.toList b.toList

/-- Insert into a sorted list, keeping earlier elements first on ties
(the ECMAScript sort is stable; on the duplicate-free output of
`Object.keys` any correct sort produces this same list). -/
def insertKey (a : String) : List String → List String
  | [] => [a]
  | b :: l => if strLeB a b then a :: b :: l else b :: insertKey a l

/-- Models `Object.keys(spec).sort()` applied to a key list. -/
def sortKeys : List String → List String
  | [] => []
  | a :: l => insertKey a (sortKeys l)

/-- Hex digit characters as produced by Node's lowercase hex rendering and
by `JSON.stringify` unicode escapes. -/
def hexDigitChar (n : Nat) : Char :=
  if n < 10 then Char.ofNat (48 + n) else Char.ofNat (87 + n)

/-- One character of ECMA-262 `QuoteJSONString` output. -/
def escapeChar (c : Char) : String :=
  if c = '"' then "\\\""
  else if c = '\\' then "\\\\"
  else if c = Char.ofNat 8 then "\\b"
  else if c = Char.ofNat 12 then "\\f"
  else if c = '\n' then "\\n"
  else if c = '\r' then "\\r"
  else if c = '\t' then "\\t"
  else if c.toNat < 32 then
    "\\u00" ++ String.mk [hexDigitChar (c.toNat / 16), hexDigitChar (c.toNat % 16)]
  else String.singleton c

/-- ECMA-262 `QuoteJSONString`. -/
def quoteJSONString (s : String) : String :=
  "\"" ++ String.join (s.toList.map escapeChar) ++ "\""

mutual

/-- ECMA-262 `SerializeJSONValue` under a property list (`JSON.stringify`
called with an ARRAY replacer): at EVERY object, the keys serialized are
the property-list entries that the object defines, in property-list order;
arrays serialize all their elements.  `serializeMembers` precomputes each
member's serialization; since `find?` takes the first key match exactly as
the spec's `Get(holder, P)` does, the assembled output is the same. -/
def serializeJ (plist : List String) : JValue → String
  | .str s => quoteJSONString s
  | .num n => toString n
  | .bool b => if b then "true" else "false"
  | .null => "null"
  | .arr xs => "[" ++ String.intercalate "," (serializeElems plist xs) ++ "]"
  | .obj kvs =>
      let sp := serializeMembers plist kvs
      "\x7b" ++ String.intercalate ","
        (plist.filterMap (fun k =>
          (sp.find? (fun p => p.1 == k)).map
            (fun p => quoteJSONString k ++ ":" ++ p.2))) ++ "\x7d"

/-- Serialization of an array's elements, in order. -/
def serializeElems (plist : List String) : List JValue → List String
  | [] => []
  | x :: xs => serializeJ plist x :: serializeElems plist xs

/-- Serialization of each object member's value, keyed by member name. -/
def serializeMembers (plist : List String) : List (String × JValue) → List (String × String)
  | [] => []
  | kv :: kvs => (kv.1, serializeJ plist kv.2) :: serializeMembers plist kvs

end

/-- Models `Object.keys` on a runtime object. -/
def objKeys : JValue → List String
  | .obj kvs => kvs.map (fun p => p.1)
  | _ => []

/-- Embeds `const stable = JSON.stringify(spec, Object.keys(spec).sort())`
from `fingerprintSpec` (`src/config.ts`). -/
def stableStringifyJS (spec : JValue) : String :=
  serializeJ (sortKeys (objKeys spec)) spec

/-! ### SHA-256 (Node `createHash("sha256")`), on 32-bit words as `Nat` -/

/-- Truncation to a 32-bit word. -/
def w32 (x : Nat) : Nat := x % 4294967296

/-- Rotate a word right by `n` bit positions. -/
def rotr32 (n x : Nat) : Nat := w32 ((x >>> n) ||| (x <<< (32 - n)))

/-- SHA-256 choice function. -/
def ch32 (x y z : Nat) : Nat := (x &&& y) ^^^ ((x ^^^ 4294967295) &&& z)

/-- SHA-256 majority function. -/
def maj32 (x y z : Nat) : Nat := ((x &&& y) ^^^ (x &&& z)) ^^^ (y &&& z)

/-- SHA-256 Σ0. -/
def bigSigma0 (x : Nat) : Nat := (rotr32 2 x ^^^ rotr32 13 x) ^^^ rotr32 22 x

/-- SHA-256 Σ1. -/
def bigSigma1 (x : Nat) : Nat := (rotr32 6 x ^^^ rotr32 11 x) ^^^ rotr32 25 x

/-- SHA-256 σ0. -/
def smallSigma0 (x : Nat) : Nat := (rotr32 7 x ^^^ rotr32 18 x) ^^^ (x >>> 3)

/-- SHA-256 σ1. -/
def smallSigma1 (x : Nat) : Nat := (rotr32 17 x ^^^ rotr32 19 x) ^^^ (x >>> 10)

/-- The 64 round constants of FIPS 180-4, written in decimal. -/
def sha256K : List Nat :=
  [1116352408, 1899447441, 3049323471, 3921009573, 961987163, 1508970993,
   2453635748, 2870763221, 3624381080, 310598401, 607225278, 1426881987,
   1925078388, 2162078206, 2614888103, 3248222580, 3835390401, 4022224774,
   264347078, 604807628, 770255983, 1249150122, 1555081692, 1996064986,
   2554220882, 2821834349, 2952996808, 3210313671, 3336571891, 3584528711,
   113926993, 338241895, 666307205, 773529912, 1294757372, 1396182291,
   1695183700, 1986661051, 2177026350, 2456956037, 2730485921, 2820302411,
   3259730800, 3345764771, 3516065817, 3600352804, 4094571909, 275423344,
   430227734, 506948616, 659060556, 883997877, 958139571, 1322822218,
   1537002063, 1747873779, 1955562222, 2024104815, 2227730452, 2361852424,
   2428436474, 2756734187, 3204031479, 3329325298]

/-- The eight 32-bit working variables / hash state. -/
structure Hash8 where
  a : Nat
  b : Nat
  c : Nat
  d : Nat
  e : Nat
  f : Nat
  g : Nat
  h : Nat

/-- The initial hash value of FIPS 180-4, written in decimal. -/
def sha256Init : Hash8 :=
  ⟨1779033703, 3144134277, 1013904242, 2773480762,
   1359893119, 2600822924, 528734635, 1541459225⟩

/-- Append the next word of the message schedule. -/
def scheduleStep (w : List Nat) : List Nat :=
  w ++ [w32 (smallSigma1 (w.getD (w.length - 2) 0) + w.getD (w.length - 7) 0 +
        smallSigma0 (w.getD (w.length - 15) 0) + w.getD (w.length - 16) 0)]

/-- Extend the 16 block words to the 64-word schedule. -/
def buildSchedule (w16 : List Nat) : List Nat :=
  (List.range 48).foldl (fun w _ => scheduleStep w) w16

/-- One compression round; the pair carries the schedule word and the round
constant. -/
def sha256Round (st : Hash8) (p : Nat × Nat) : Hash8 :=
  let t1 := w32 (st.h + bigSigma1 st.e + ch32 st.e st.f st.g + p.2 + p.1)
  let t2 := w32 (bigSigma0 st.a + maj32 st.a st.b st.c)
  ⟨w32 (t1 + t2), st.a, st.b, st.c, w32 (st.d + t1), st.e, st.f, st.g⟩

/-- Compress one 16-word block into the hash value. -/
def compressBlock (hv : Hash8) (block : List Nat) : Hash8 :=
  let w := buildSchedule block
  let st := (w.zip sha256K).foldl sha256Round hv
  ⟨w32 (hv.a + st.a), w32 (hv.b + st.b), w32 (hv.c + st.c), w32 (hv.d + st.d),
   w32 (hv.e + st.e), w32 (hv.f + st.f), w32 (hv.g + st.g), w32 (hv.h + st.h)⟩

/-- Big-endian 64-bit length field of the SHA-256 padding. -/
def be64 (n : Nat) : List Nat :=
  [(n >>> 56) % 256, (n >>> 48) % 256, (n >>> 40) % 256, (n >>> 32) % 256,
   (n >>> 24) % 256, (n >>> 16) % 256, (n >>> 8) % 256, n % 256]

/-- SHA-256 message padding: a `0x80` byte, zeros to 56 mod 64, and the
bit length. -/
def padMessage (msg : List Nat) : List Nat :=
  msg ++ [128] ++ List.replicate ((120 - (msg.length + 1) % 64) % 64) 0 ++
    be64 (8 * msg.length)

/-- Big-endian bytes to 32-bit words. -/
def bytesToWords : List Nat → List Nat
  | b0 :: b1 :: b2 :: b3 :: rest =>
      (((b0 <<< 24) ||| (b1 <<< 16)) ||| ((b2 <<< 8) ||| b3)) :: bytesToWords rest
  | _ => []

/-- Split a padded word list into 16-word blocks. -/
def chunk16 : List Nat → List (List Nat)
  | w0 :: w1 :: w2 :: w3 :: w4 :: w5 :: w6 :: w7 ::
    w8 :: w9 :: w10 :: w11 :: w12 :: w13 :: w14 :: w15 :: rest =>
      [w0, w1, w2, w3, w4, w5, w6, w7, w8, w9, w10, w11, w12, w13, w14, w15] ::
        chunk16 rest
  | _ => []

/-- A 32-bit word as four big-endian bytes. -/
def wordBe (w : Nat) : List Nat :=
  [(w >>> 24) % 256, (w >>> 16) % 256, (w >>> 8) % 256, w % 256]

/-- The SHA-256 digest (32 bytes) of a byte sequence. -/
def sha256Bytes (msg : List Nat) : List Nat :=
  let hv := (chunk16 (bytesToWords (padMessage msg))).foldl compressBlock sha256Init
  wordBe hv.a ++ wordBe hv.b ++ wordBe hv.c ++ wordBe hv.d ++
    wordBe hv.e ++ wordBe hv.f ++ wordBe hv.g ++ wordBe hv.h

/-- One byte as two lowercase hex characters. -/
def byteToHex (b : Nat) : List Char :=
  [hexDigitChar (b / 16), hexDigitChar (b % 16)]

/-- Node `digest("hex")`: lowercase hex rendering of the digest bytes. -/
def bytesToHex (bs : List Nat) : String :=
  String.mk ((bs.map byteToHex).flatten)

/-- UTF-8 encoding of one character. -/
def utf8EncodeChar (c : Char) : List Nat :=
  let n := c.toNat
  if n < 128 then [n]
  else if n < 2048 then [192 ||| (n >>> 6), 128 ||| (n &&& 63)]
  else if n < 65536 then
    [224 ||| (n >>> 12), 128 ||| ((n >>> 6) &&& 63), 128 ||| (n &&& 63)]
  else
    [240 ||| (n >>> 18), 128 ||| ((n >>> 12) &&& 63),
     128 ||| ((n >>> 6) &&& 63), 128 ||| (n &&& 63)]

/-- UTF-8 encoding of a string (`hash.update(stable)` hashes UTF-8 bytes). -/
def utf8Encode (s : String) : List Nat :=
  (s.toList.map utf8EncodeChar).flatten

/-- Embeds `createHash("sha256").update(s).digest("hex")`. -/
def sha256hex (s : String) : String :=
  bytesToHex (sha256Bytes (utf8Encode s))

/-- Embeds `fingerprintSpec` (`src/config.ts`) on a runtime spec object. -/
def fingerprintJS (spec : JValue) : String :=
  sha256hex (stableStringifyJS spec)

/-! ### The runtime object of a typed `EnvironmentSpec`

The loader (`loadSpec`) builds the runtime object from parsed JSON/YAML, so
its own enumerable keys are the defined fields; `specToJS` lists them in
the declared field order (claim C3 shows the fingerprint is invariant to
this order), omitting `undefined` (i.e. `none`) optionals exactly as such
an object omits absent keys. -/

/-- Runtime object of a `SecretProvider`. -/
def secretToJS (s : SecretProvider) : JValue :=
  .obj ([("provider", .str s.provider), ("path", .str s.path)] ++
    (match s.rotationDays with
     | some d => [("rotationDays", .num d)]
     | none => []))

/-- Runtime object of a `Toolchain`. -/
def toolchainToJS (t : Toolchain) : JValue :=
  .obj ([("name", .str t.name), ("version", .str t.version)] ++
    (match t.cacheKey with
     | some k => [("cacheKey", .str k)]
     | none => []))

/-- Runtime object of an `overrides` record. -/
def overridesToJS (o : Overrides) : JValue :=
  .obj ((match o.description with
     | some d => [("description", JValue.str d)]
     | none => []) ++
    (match o.secrets with
     | some s => [("secrets", JValue.arr (s.map secretToJS))]
     | none => []) ++
    (match o.toolchains with
     | some t => [("toolchains", JValue.arr (t.map toolchainToJS))]
     | none => []) ++
    (match o.policies with
     | some p => [("policies", JValue.arr (p.map JValue.str))]
     | none => []) ++
    (match o.checks with
     | some c => [("checks", JValue.arr (c.map JValue.str))]
     | none => []))

/-- Runtime object of an `EnvironmentHierarchy`. -/
def hierarchyToJS (h : EnvironmentHierarchy) : JValue :=
  .obj ([("name", JValue.str h.name)] ++
    (match h.extends_ with
     | some e => [("extends", JValue.str e)]
     | none => []) ++
    (match h.overrides with
     | some o => [("overrides", overridesToJS o)]
     | none => []))

/-- Runtime object of a `BackupConfig`. -/
def backupToJS (b : BackupConfig) : JValue :=
  .obj ([("enabled", JValue.bool b.enabled), ("retentionDays", JValue.num b.retentionDays)] ++
    (match b.schedule with
     | some s => [("schedule", JValue.str s)]
     | none => []) ++
    (match b.regions with
     | some r => [("regions", JValue.arr (r.map JValue.str))]
     | none => []))

/-- Runtime object of an `EnvironmentSpec`, keys in declared field order. -/
def specToJS (s : EnvironmentSpec) : JValue :=
  .obj ([("name", JValue.str s.name)] ++
    (match s.description with
     | some d => [("description", JValue.str d)]
     | none => []) ++
    (match s.secrets with
     | some x => [("secrets", JValue.arr (x.map secretToJS))]
     | none => []) ++
    (match s.toolchains with
     | some x => [("toolchains", JValue.arr (x.map toolchainToJS))]
     | none => []) ++
    (match s.policies with
     | some x => [("policies", JValue.arr (x.map JValue.str))]
     | none => []) ++
    (match s.checks with
     | some x => [("checks", JValue.arr (x.map JValue.str))]
     | none => []) ++
    (match s.environments with
     | some x => [("environments", JValue.arr (x.map hierarchyToJS))]
     | none => []) ++
    (match s.region with
     | some r => [("region", JValue.str r)]
     | none => []) ++
    (match s.backup with
     | some b => [("backup", backupToJS b)]
     | none => []))

/-- Embeds `fingerprintSpec` applied to the runtime object of a typed
spec. -/
def fingerprintSpec (s : EnvironmentSpec) : String :=
  fingerprintJS (specToJS s)

/-! ### Concrete inputs used to exercise the claims -/

/-- A spec whose only nested data is one secret with path `p1`. -/
def fpSpecP1 : EnvironmentSpec :=
  { name := "a", secrets := some [{ provider := "vault", path := "p1" }] }

/-- The same spec with the secret path changed to `p2`. -/
def fpSpecP2 : EnvironmentSpec :=
  { name := "a", secrets := some [{ provider := "vault", path := "p2" }] }

/-- A base spec declaring the two-cycle `a extends b`, `b extends a`. -/
def cycleBase : EnvironmentSpec :=
  { name := "base",
    environments := some [{ name := "a", extends_ := some "b" },
                          { name := "b", extends_ := some "a" }] }

/-- Base spec of the single-layer override example. -/
def overrideBase : EnvironmentSpec :=
  { name := "base", secrets := some [⟨"vault", "kv/a", none⟩],
    policies := some ["P"] }

/-- Layer overriding only `secrets` over `overrideBase`. -/
def overrideLayer : EnvironmentHierarchy :=
  { name := "child", extends_ := some "base",
    overrides := some { secrets := some [⟨"vault", "kv/b", none⟩] } }

/-- Manager base spec of the promotion example: the base itself is the
source and its declared layer `tgt` the target. -/
def promoBase : EnvironmentSpec :=
  { name := "src",
    secrets := some [⟨"vault", "kv/app", none⟩],
    toolchains := some [⟨"node", "20", none⟩],
    policies := some ["P1"],
    environments := some [{ name := "tgt",
                            overrides := some { policies := some ["P2"] } }] }

/-- Base spec whose name a later layer re-uses. -/
def rebindBase : EnvironmentSpec :=
  { name := "base", description := some "original" }

/-- Layer named like `rebindBase`, overriding its description. -/
def rebindLayer : EnvironmentHierarchy :=
  { name := "base", overrides := some { description := some "overridden" } }

/-! ## Registry lemmas -/

theorem mapGet_cons (p : String × EnvironmentSpec) (m : Registry) (k : String) :
    mapGet (p :: m) k = if p.1 == k then some p.2 else mapGet m k := by
  by_cases h : p.1 == k <;> simp [mapGet, List.find?_cons, h]

theorem mapGet_update_self (m : Registry) (k : String) (v : EnvironmentSpec)
    (hany : m.any (fun p => p.1 == k) = true) :
    mapGet (m.map (fun p => if p.1 == k then (k, v) else p)) k = some v := by
  induction m with
  | nil => simp at hany
  | cons q m ih =>
    rw [List.map_cons]
    by_cases hq : q.1 = k
    · rw [if_pos (by simpa using hq), mapGet_cons, if_pos (by simp)]
    · rw [if_neg (by simpa using hq), mapGet_cons, if_neg (by simpa using hq)]
      exact ih (by simpa [List.any_cons, hq] using hany)

theorem mapGet_update_ne (m : Registry) (k k' : String) (v : EnvironmentSpec)
    (hne : k' ≠ k) :
    mapGet (m.map (fun p => if p.1 == k then (k, v) else p)) k' = mapGet m k' := by
  have hk' : ¬ ((k == k') = true) := by simpa using fun h => hne h.symm
  induction m with
  | nil => rfl
  | cons q m ih =>
    rw [List.map_cons]
    by_cases hq : q.1 = k
    · have hqk' : ¬ ((q.1 == k') = true) := by
        simp only [beq_iff_eq]
        rw [hq]
        simpa using hk'
      rw [if_pos (by simpa using hq), mapGet_cons, mapGet_cons, if_neg hk', if_neg hqk']
      exact ih
    · rw [if_neg (by simpa using hq), mapGet_cons, mapGet_cons, ih]

theorem mapGet_append_self (m : Registry) (k : String) (v : EnvironmentSpec)
    (hany : m.any (fun p => p.1 == k) = false) :
    mapGet (m ++ [(k, v)]) k = some v := by
  induction m with
  | nil => simp [mapGet_cons]
  | cons q m ih =>
    have hq : ¬ (q.1 = k) := by
      intro h
      simp [List.any_cons, h] at hany
    have hany' : m.any (fun p => p.1 == k) = false := by
      simpa [List.any_cons, hq] using hany
    simp [List.cons_append, mapGet_cons, hq, ih hany']

theorem mapGet_append_ne (m : Registry) (k k' : String) (v : EnvironmentSpec)
    (hne : k' ≠ k) :
    mapGet (m ++ [(k, v)]) k' = mapGet m k' := by
  have hk' : ¬ (k = k') := fun h => hne h.symm
  induction m with
  | nil => simp [mapGet, List.find?_cons, hk']
  | cons q m ih =>
    by_cases hqk : q.1 = k'
    · simp [List.cons_append, mapGet_cons, hqk]
    · simp [List.cons_append, mapGet_cons, hqk, ih]

theorem mapGet_mapSet_self (m : Registry) (k : String) (v : EnvironmentSpec) :
    mapGet (mapSet m k v) k = some v := by
  cases hany : m.any (fun p => p.1 == k) with
  | true =>
    rw [mapSet, if_pos hany]
    exact mapGet_update_self m k v hany
  | false =>
    rw [mapSet, if_neg (by rw [hany]; exact Bool.false_ne_true)]
    exact mapGet_append_self m k v hany

theorem mapGet_mapSet_ne (m : Registry) (k k' : String) (v : EnvironmentSpec)
    (hne : k' ≠ k) : mapGet (mapSet m k v) k' = mapGet m k' := by
  cases hany : m.any (fun p => p.1 == k) with
  | true =>
    rw [mapSet, if_pos hany]
    exact mapGet_update_ne m k k' v hne
  | false =>
    rw [mapSet, if_neg (by rw [hany]; exact Bool.false_ne_true)]
    exact mapGet_append_ne m k k' v hne

theorem listEnvironments_mapSet (m : Registry) (k : String) (v : EnvironmentSpec) :
    listEnvironments (mapSet m k v) =
      if m.any (fun p => p.1 == k) = true then listEnvironments m
      else listEnvironments m ++ [k] := by
  cases hany : m.any (fun p => p.1 == k) with
  | true =>
    rw [if_pos rfl, mapSet, if_pos hany]
    unfold listEnvironments
    rw [List.map_map]
    refine List.map_congr_left ?_
    intro p _
    by_cases hp : p.1 = k
    · simp [Function.comp, hp]
    · simp [Function.comp, hp]
  | false =>
    rw [if_neg Bool.false_ne_true, mapSet,
      if_neg (fun h => Bool.false_ne_true (hany ▸ h))]
    simp [listEnvironments]

theorem mergeHierarchySpec_name (p : EnvironmentSpec) (h : EnvironmentHierarchy) :
    (mergeHierarchySpec p h).name = h.name := by
  cases ho : h.overrides <;> simp [mergeHierarchySpec, ho]

/-- C1: single-layer override semantics: resolving one layer against its
parent replaces `name` and exactly the defined override fields, all other
fields keeping the parent's values. -/
theorem single_layer_override_semantics
    (base : EnvironmentSpec) (layer : EnvironmentHierarchy) (P : EnvironmentSpec)
    (hP : getHierarchyParentSpec base (mapSet [] base.name base) layer = P) :
    ∃ r, getEnvironment (buildEnvironmentHierarchy base [layer]) layer.name = some r ∧
      r.name = layer.name ∧
      r.description = (match layer.overrides.bind (fun o => o.description) with
        | some d => some d
        | none => P.description) ∧
      r.secrets = (match layer.overrides.bind (fun o => o.secrets) with
        | some s => some s
        | none => P.secrets) ∧
      r.toolchains = (match layer.overrides.bind (fun o => o.toolchains) with
        | some t => some t
        | none => P.toolchains) ∧
      r.policies = (match layer.overrides.bind (fun o => o.policies) with
        | some p => some p
        | none => P.policies) ∧
      r.checks = (match layer.overrides.bind (fun o => o.checks) with
        | some c => some c
        | none => P.checks) ∧
      r.environments = P.environments ∧ r.region = P.region ∧ r.backup = P.backup := by
  refine ⟨mergeHierarchySpec P layer, ?_, ?_⟩
  · have hb : buildEnvironmentHierarchy base [layer] =
        mapSet (mapSet [] base.name base) layer.name
          (resolveHierarchy base (mapSet [] base.name base) layer) := rfl
    rw [hb, getEnvironment, mapGet_mapSet_self, resolveHierarchy, hP]
  · cases ho : layer.overrides with
    | none => simp [mergeHierarchySpec, ho]
    | some o =>
      obtain ⟨od, os, ot, op, oc⟩ := o
      cases od <;> cases os <;> cases ot <;> cases op <;> cases oc <;>
        simp [mergeHierarchySpec, ho, Option.bind]

/-- C1 witness: the spec example, base with secrets `[A]`, policies `[P]`
and a child overriding only `secrets`. -/
theorem single_layer_override_semantics_witness :
    ∃ r, getEnvironment (buildEnvironmentHierarchy overrideBase [overrideLayer])
        overrideLayer.name = some r ∧
      r.name = "child" ∧ r.secrets = some [⟨"vault", "kv/b", none⟩] ∧
      r.policies = some ["P"] := by
  obtain ⟨r, hget, hname, hdesc, hsec, htc, hpol, hrest⟩ :=
    single_layer_override_semantics overrideBase overrideLayer overrideBase (by decide)
  exact ⟨r, hget, hname, by simpa [overrideLayer] using hsec,
    by simpa [overrideLayer, overrideBase] using hpol⟩

/-- C4: a layer whose `extends` is absent or not in the registry when the
layer is processed resolves against the base spec; layers are processed
against the registry built from the preceding layers; the orphan example
resolves to the base with only `name` replaced. -/
theorem unresolvable_extends_fallback :
    (∀ (base : EnvironmentSpec) (m : Registry) (h : EnvironmentHierarchy),
      (h.extends_ = none ∨ ∃ e, h.extends_ = some e ∧ mapGet m e = none) →
      getHierarchyParentSpec base m h = base) ∧
    (∀ (base : EnvironmentSpec) (hs : List EnvironmentHierarchy)
        (h : EnvironmentHierarchy) (rest : List EnvironmentHierarchy),
      buildEnvironmentHierarchy base (hs ++ h :: rest) =
        rest.foldl (buildStep base)
          (mapSet (buildEnvironmentHierarchy base hs) h.name
            (mergeHierarchySpec
              (getHierarchyParentSpec base (buildEnvironmentHierarchy base hs) h) h))) ∧
    (∀ base : EnvironmentSpec,
      getEnvironment (buildEnvironmentHierarchy base
          [{ name := "orphan", extends_ := some "nonexistent", overrides := none }])
        "orphan" = some { base with name := "orphan" }) := by
  refine ⟨?_, ?_, ?_⟩
  · rintro base m h (hn | ⟨e, he, hm⟩)
    · simp [getHierarchyParentSpec, hn]
    · by_cases h0 : e = "" <;> simp [getHierarchyParentSpec, he, hm, h0]
  · intro base hs h rest
    simp [buildEnvironmentHierarchy, List.foldl_append, buildStep, resolveHierarchy]
  · intro base
    have hpar : getHierarchyParentSpec base (mapSet [] base.name base)
        { name := "orphan", extends_ := some "nonexistent", overrides := none } = base := by
      by_cases hb : base.name = "nonexistent"
      · simp [getHierarchyParentSpec, mapSet, mapGet_cons, hb]
      · have : (base.name == "nonexistent") = false := by simpa using hb
        simp [getHierarchyParentSpec, mapSet, mapGet_cons, this, mapGet]
    have hb : buildEnvironmentHierarchy base
        [{ name := "orphan", extends_ := some "nonexistent", overrides := none }] =
        mapSet (mapSet [] base.name base) "orphan"
          (resolveHierarchy base (mapSet [] base.name base)
            { name := "orphan", extends_ := some "nonexistent", overrides := none }) := rfl
    rw [hb, getEnvironment, mapGet_mapSet_self, resolveHierarchy, hpar]
    simp [mergeHierarchySpec]

/-- C4 witness: the orphan example at a concrete base spec. -/
theorem unresolvable_extends_fallback_witness :
    getHierarchyParentSpec rebindBase [] { name := "x", extends_ := some "missing" } =
        rebindBase ∧
    getEnvironment (buildEnvironmentHierarchy rebindBase
        [{ name := "orphan", extends_ := some "nonexistent", overrides := none }])
      "orphan" = some { rebindBase with name := "orphan" } :=
  ⟨unresolvable_extends_fallback.1 rebindBase []
      { name := "x", extends_ := some "missing" } (Or.inr ⟨"missing", rfl, rfl⟩),
    unresolvable_extends_fallback.2.2 rebindBase⟩

/-- C7: promotion with an unresolved endpoint yields `none`, and lookup of
an unregistered name yields `none`; both are ordinary values, not thrown
exceptions. -/
theorem lookup_failure_semantics :
    (∀ (m : Registry) (fromName toName : String),
      getEnvironment m fromName = none ∨ getEnvironment m toName = none →
      (promoteEnvironment m fromName toName).1 = none) ∧
    (∀ (m : Registry) (name : String),
      name ∉ listEnvironments m → getEnvironment m name = none) := by
  constructor
  · intro m fromName toName h
    cases hf : getEnvironment m fromName <;> cases ht : getEnvironment m toName <;>
      simp_all [promoteEnvironment]
  · intro m name hmem
    have hall : ∀ p ∈ m, ¬ (p.1 == name) = true := by
      intro p hp hpk
      refine hmem ?_
      have hpname : p.1 = name := by simpa using hpk
      unfold listEnvironments
      exact List.mem_map.mpr ⟨p, hp, hpname⟩
    simp [getEnvironment, mapGet, List.find?_eq_none.mpr hall]

/-- C7 witness: promoting from the unknown name `missing` into `base`. -/
theorem lookup_failure_semantics_witness :
    (promoteEnvironment (managerRegistry rebindBase) "missing" "base").1 = none ∧
    getEnvironment (managerRegistry rebindBase) "missing" = none :=
  ⟨lookup_failure_semantics.1 _ "missing" "base" (Or.inl (by decide)),
    lookup_failure_semantics.2 _ "missing" (by decide)⟩

/-! ## Order lemmas for the key sort -/

theorem lexLe_total (as bs : List Char) : lexLe as bs = true ∨ lexLe bs as = true := by
  induction as generalizing bs with
  | nil => left; rfl
  | cons a as ih =>
    cases bs with
    | nil => right; rfl
    | cons b bs =>
      by_cases hab : a.toNat < b.toNat
      · left; simp [lexLe, hab]
      · by_cases hba : b.toNat < a.toNat
        · right; simp [lexLe, hba]
        · rcases ih bs with h | h
          · left; simp [lexLe, hab, hba, h]
          · right; simp [lexLe, hab, hba, h]

theorem lexLe_trans {as bs cs : List Char} (h1 : lexLe as bs = true)
    (h2 : lexLe bs cs = true) : lexLe as cs = true := by
  induction as generalizing bs cs with
  | nil => rfl
  | cons a as ih =>
    cases bs with
    | nil => simp [lexLe] at h1
    | cons b bs =>
      cases cs with
      | nil => simp [lexLe] at h2
      | cons c cs =>
        by_cases hab : a.toNat < b.toNat
        · by_cases hbc : b.toNat < c.toNat
          · simp [lexLe, Nat.lt_trans hab hbc]
          · by_cases hcb : c.toNat < b.toNat
            · simp [lexLe, hbc, hcb] at h2
            · have hac : a.toNat < c.toNat := by omega
              simp [lexLe, hac]
        · by_cases hba : b.toNat < a.toNat
          · simp [lexLe, hab, hba] at h1
          · have h1' : lexLe as bs = true := by simpa [lexLe, hab, hba] using h1
            by_cases hbc : b.toNat < c.toNat
            · have hac : a.toNat < c.toNat := by omega
              simp [lexLe, hac]
            · by_cases hcb : c.toNat < b.toNat
              · simp [lexLe, hbc, hcb] at h2
              · have h2' : lexLe bs cs = true := by simpa [lexLe, hbc, hcb] using h2
                have hac1 : ¬ a.toNat < c.toNat := by omega
                have hac2 : ¬ c.toNat < a.toNat := by omega
                simp [lexLe, hac1, hac2]
                exact ih h1' h2'

theorem lexLe_antisymm {as bs : List Char} (h1 : lexLe as bs = true)
    (h2 : lexLe bs as = true) : as = bs := by
  induction as generalizing bs with
  | nil =>
    cases bs with
    | nil => rfl
    | cons b bs => simp [lexLe] at h2
  | cons a as ih =>
    cases bs with
    | nil => simp [lexLe] at h1
    | cons b bs =>
      by_cases hab : a.toNat < b.toNat
      · simp [lexLe, hab, Nat.lt_asymm hab] at h2
      · by_cases hba : b.toNat < a.toNat
        · simp [lexLe, hab, hba] at h1
        · have h1' : lexLe as bs = true := by simpa [lexLe, hab, hba] using h1
          have h2' : lexLe bs as = true := by simpa [lexLe, hab, hba] using h2
          have hc : a = b := by
            apply Char.eq_of_val_eq
            apply UInt32.ext_iff.mpr
            show a.toNat = b.toNat
            omega
          rw [hc, ih h1' h2']

theorem strLeB_total (a b : String) : strLeB a b = true ∨ strLeB b a = true :=
  lexLe_total a.toList b.toList

theorem strLeB_trans {a b c : String} (h1 : strLeB a b = true)
    (h2 : strLeB b c = true) : strLeB a c = true :=
  lexLe_trans h1 h2

theorem strLeB_antisymm {a b : String} (h1 : strLeB a b = true)
    (h2 : strLeB b a = true) : a = b :=
  String.ext (lexLe_antisymm h1 h2)

theorem insertKey_perm (a : String) (l : List String) :
    (insertKey a l).Perm (a :: l) := by
  induction l with
  | nil => exact List.Perm.refl _
  | cons b l ih =>
    by_cases h : strLeB a b = true
    · rw [insertKey, if_pos h]
    · rw [insertKey, if_neg h]
      exact (ih.cons b).trans (List.Perm.swap a b l)

theorem sortKeys_perm (l : List String) : (sortKeys l).Perm l := by
  induction l with
  | nil => exact List.Perm.refl _
  | cons a l ih =>
    exact (insertKey_perm a (sortKeys l)).trans (ih.cons a)

theorem insertKey_sorted (a : String) (l : List String)
    (hl : l.Pairwise (fun x y => strLeB x y = true)) :
    (insertKey a l).Pairwise (fun x y => strLeB x y = true) := by
  induction l with
  | nil => simp [insertKey]
  | cons b l ih =>
    obtain ⟨hb, hl'⟩ := List.pairwise_cons.mp hl
    by_cases h : strLeB a b = true
    · rw [insertKey, if_pos h]
      refine List.pairwise_cons.mpr ⟨?_, hl⟩
      intro x hx
      rcases List.mem_cons.mp hx with rfl | hx
      · exact h
      · exact strLeB_trans h (hb x hx)
    · rw [insertKey, if_neg h]
      refine List.pairwise_cons.mpr ⟨?_, ih hl'⟩
      intro x hx
      have hx' : x = a ∨ x ∈ l := by
        simpa using (insertKey_perm a l).mem_iff.mp hx
      rcases hx' with rfl | hx'
      · rcases strLeB_total b x with h' | h'
        · exact h'
        · exact absurd h' h
      · exact hb x hx'

theorem sortKeys_sorted (l : List String) :
    (sortKeys l).Pairwise (fun x y => strLeB x y = true) := by
  induction l with
  | nil => simp [sortKeys]
  | cons a l ih => exact insertKey_sorted a (sortKeys l) ih

theorem sortKeys_eq_of_perm {l1 l2 : List String} (h : l1.Perm l2) :
    sortKeys l1 = sortKeys l2 := by
  haveI : IsAntisymm String (fun x y => strLeB x y = true) :=
    ⟨fun _ _ => strLeB_antisymm⟩
  exact List.eq_of_perm_of_sorted
    ((sortKeys_perm l1).trans (h.trans (sortKeys_perm l2).symm))
    (sortKeys_sorted l1) (sortKeys_sorted l2)

/-! ## Serializer lemmas -/

theorem serializeMembers_find? (plist : List String) (kvs : List (String × JValue))
    (k : String) :
    (serializeMembers plist kvs).find? (fun p => p.1 == k) =
      (kvs.find? (fun p => p.1 == k)).map (fun p => (p.1, serializeJ plist p.2)) := by
  induction kvs with
  | nil => rfl
  | cons kv kvs ih =>
    by_cases h : kv.1 = k
    · simp [serializeMembers, List.find?_cons, h]
    · simp [serializeMembers, List.find?_cons, h, ih]

theorem find?_key_perm {α : Type} {kvs1 kvs2 : List (String × α)} (h : kvs1.Perm kvs2) :
    (kvs1.map Prod.fst).Nodup →
    ∀ k, kvs1.find? (fun p => p.1 == k) = kvs2.find? (fun p => p.1 == k) := by
  induction h with
  | nil => intro _ _; rfl
  | cons x h ih =>
    rename_i l₁ l₂
    intro hnd k
    have hnd0 : (x.1 :: l₁.map Prod.fst).Nodup := hnd
    have hnd' := (List.nodup_cons.mp hnd0).2
    by_cases hx : x.1 = k
    · simp [List.find?_cons, hx]
    · simp [List.find?_cons, hx, ih hnd' k]
  | swap x y l =>
    intro hnd k
    have hnd0 : (y.1 :: x.1 :: l.map Prod.fst).Nodup := hnd
    have hxy : y.1 ≠ x.1 := by
      intro hc
      refine (List.nodup_cons.mp hnd0).1 ?_
      rw [hc]
      exact List.mem_cons_self _ _
    by_cases hy : y.1 = k <;> by_cases hx : x.1 = k
    · exact absurd (hy.trans hx.symm) hxy
    · simp [List.find?_cons, hy, hx]
    · simp [List.find?_cons, hy, hx]
    · simp [List.find?_cons, hy, hx]
  | trans h12 h23 ih12 ih23 =>
    intro hnd k
    have hnd2 : _ := ((h12.map Prod.fst).nodup_iff).mp hnd
    rw [ih12 hnd k, ih23 hnd2 k]

theorem serializeJ_obj_congr (plist : List String) {kvs1 kvs2 : List (String × JValue)}
    (h : kvs1.Perm kvs2) (hnd : (kvs1.map Prod.fst).Nodup) :
    serializeJ plist (.obj kvs1) = serializeJ plist (.obj kvs2) := by
  simp only [serializeJ]
  refine congrArg (fun s => "\x7b" ++ String.intercalate "," s ++ "\x7d") ?_
  refine List.filterMap_congr ?_
  intro k _
  rw [serializeMembers_find?, serializeMembers_find?, find?_key_perm h hnd k]

/-- C9: `promoteEnvironment` leaves the manager registry observationally
unchanged: the state it returns is the input registry, so every
`listEnvironments` and `getEnvironment` observation is unchanged, and the
synthesized environment is not registered. -/
theorem promotion_preserves_registry (m : Registry) (fromName toName : String) :
    (promoteEnvironment m fromName toName).2 = m ∧
    listEnvironments (promoteEnvironment m fromName toName).2 = listEnvironments m ∧
    ∀ n, getEnvironment (promoteEnvironment m fromName toName).2 n = getEnvironment m n := by
  have h2 : (promoteEnvironment m fromName toName).2 = m := by
    cases hf : getEnvironment m fromName <;> cases ht : getEnvironment m toName <;>
      simp [promoteEnvironment, hf, ht]
  exact ⟨h2, by rw [h2], fun n => by rw [h2]⟩

/-! ## Digest format lemmas -/

theorem wordBe_lt (w : Nat) : ∀ b ∈ wordBe w, b < 256 := by
  intro b hb
  simp [wordBe] at hb
  rcases hb with rfl | rfl | rfl | rfl <;> exact Nat.mod_lt _ (by norm_num)

theorem sha256Bytes_lt (msg : List Nat) : ∀ b ∈ sha256Bytes msg, b < 256 := by
  intro b hb
  simp only [sha256Bytes, List.mem_append] at hb
  rcases hb with ((((((h | h) | h) | h) | h) | h) | h) | h <;> exact wordBe_lt _ b h

theorem sha256Bytes_length (msg : List Nat) : (sha256Bytes msg).length = 32 := by
  simp [sha256Bytes, wordBe]

theorem hexDigitChar_range : ∀ n, n < 16 →
    ((decide ('0' ≤ hexDigitChar n) && decide (hexDigitChar n ≤ '9')) ||
     (decide ('a' ≤ hexDigitChar n) && decide (hexDigitChar n ≤ 'f'))) = true := by
  decide

theorem sha256hex_format (s : String) :
    (sha256hex s).length = 64 ∧
    ((sha256hex s).data.all (fun c =>
      (decide ('0' ≤ c) && decide (c ≤ '9')) ||
      (decide ('a' ≤ c) && decide (c ≤ 'f'))) = true) := by
  constructor
  · have hlen : ∀ bs : List Nat, ((bs.map byteToHex).flatten).length = 2 * bs.length := by
      intro bs
      induction bs with
      | nil => simp
      | cons b bs ih => simp [byteToHex, ih]; omega
    show ((sha256Bytes (utf8Encode s)).map byteToHex).flatten.length = 64
    rw [hlen, sha256Bytes_length]
  · rw [List.all_eq_true]
    intro c hc
    have hc' : c ∈ ((sha256Bytes (utf8Encode s)).map byteToHex).flatten := hc
    obtain ⟨l', hl', hcl⟩ := List.mem_flatten.mp hc'
    obtain ⟨b, hb, rfl⟩ := List.mem_map.mp hl'
    have hblt : b < 256 := sha256Bytes_lt _ b hb
    simp [byteToHex] at hcl
    rcases hcl with rfl | rfl
    · exact hexDigitChar_range (b / 16) (by omega)
    · exact hexDigitChar_range (b % 16) (by omega)

/-- C3: the fingerprint is deterministic, invariant under the insertion
order of the runtime object's top-level keys, and always a 64-character
lowercase-hex string. -/
theorem fingerprint_determinism_and_format :
    (∀ s : EnvironmentSpec, fingerprintSpec s = fingerprintSpec s) ∧
    (∀ kvs1 kvs2 : List (String × JValue),
      (kvs1.map Prod.fst).Nodup → kvs1.Perm kvs2 →
      fingerprintJS (.obj kvs1) = fingerprintJS (.obj kvs2)) ∧
    (∀ s : EnvironmentSpec,
      (fingerprintSpec s).length = 64 ∧
      ((fingerprintSpec s).data.all (fun c =>
        (decide ('0' ≤ c) && decide (c ≤ '9')) ||
        (decide ('a' ≤ c) && decide (c ≤ 'f'))) = true)) := by
  refine ⟨fun s => rfl, ?_, fun s => sha256hex_format _⟩
  intro kvs1 kvs2 hnd hperm
  show sha256hex (stableStringifyJS (.obj kvs1)) =
    sha256hex (stableStringifyJS (.obj kvs2))
  refine congrArg sha256hex ?_
  show serializeJ (sortKeys (kvs1.map (fun p => p.1))) (.obj kvs1) =
    serializeJ (sortKeys (kvs2.map (fun p => p.1))) (.obj kvs2)
  rw [sortKeys_eq_of_perm (hperm.map (fun p => p.1))]
  exact serializeJ_obj_congr _ hperm hnd

/-- C3 witness: two concrete spec objects that differ only in key
insertion order have equal fingerprints. -/
theorem fingerprint_determinism_and_format_witness :
    fingerprintJS (.obj [("name", JValue.str "test"), ("description", JValue.str "d")]) =
      fingerprintJS (.obj [("description", JValue.str "d"), ("name", JValue.str "test")]) :=
  fingerprint_determinism_and_format.2.1 _ _ (by decide)
    (List.Perm.swap ("description", JValue.str "d") ("name", JValue.str "test") [])

/-- C2 (refuted on the code): two specs that differ only in a nested
secret path serialize identically — the array replacer passed to
`JSON.stringify` filters every nested object by the top-level key list, so
both serialize to the literal shown and their fingerprints are equal. -/
theorem fingerprint_nested_insensitivity :
    fpSpecP1 ≠ fpSpecP2 ∧
    stableStringifyJS (specToJS fpSpecP1) =
      "\x7b\"name\":\"a\",\"secrets\":[\x7b\x7d]\x7d" ∧
    stableStringifyJS (specToJS fpSpecP2) =
      "\x7b\"name\":\"a\",\"secrets\":[\x7b\x7d]\x7d" ∧
    fingerprintSpec fpSpecP1 = fingerprintSpec fpSpecP2 := by
  refine ⟨by decide, rfl, rfl, ?_⟩
  show sha256hex (stableStringifyJS (specToJS fpSpecP1)) =
    sha256hex (stableStringifyJS (specToJS fpSpecP2))
  exact congrArg sha256hex rfl

/-- C5: `validateHierarchy` reports `valid` exactly when no error was
collected, and on the two-cycle example both affected environments are
reported (so a detected cycle does not stop the remaining checks). -/
theorem cycle_detection :
    (∀ m : Registry, (validateHierarchy m).1 = true ↔ (validateHierarchy m).2 = []) ∧
    (validateHierarchy (managerRegistry cycleBase)).1 = false ∧
    "Circular dependency detected in environment: a" ∈
      (validateHierarchy (managerRegistry cycleBase)).2 ∧
    (validateHierarchy (managerRegistry cycleBase)).2.length = 2 := by
  refine ⟨?_, by decide, by decide, by decide⟩
  intro m
  have h1 : (validateHierarchy m).1 = ((validateHierarchy m).2.length == 0) := rfl
  rw [h1]
  constructor
  · intro h
    exact List.length_eq_zero.mp (by simpa using h)
  · intro h
    simp [h]

/-- C6: promotion of `fromName` onto `toName` (both resolved) yields the
target spec with `name` replaced by `fromName-to-toName` and `secrets` and
`toolchains` taken from the source exactly when the source defines them. -/
theorem promotion_result_shape (base : EnvironmentSpec) (fromName toName : String)
    (src tgt : EnvironmentSpec)
    (hf : getEnvironment (managerRegistry base) fromName = some src)
    (ht : getEnvironment (managerRegistry base) toName = some tgt) :
    (promoteEnvironment (managerRegistry base) fromName toName).1 = some
      { tgt with
        name := fromName ++ "-to-" ++ toName
        secrets := match src.secrets with
          | some s => some s
          | none => tgt.secrets
        toolchains := match src.toolchains with
          | some t => some t
          | none => tgt.toolchains } := by
  have hpar : getHierarchyParentSpec tgt (mapSet [] tgt.name tgt)
      { name := fromName ++ "-to-" ++ toName, extends_ := some toName,
        overrides := some { description := none, secrets := src.secrets,
                            toolchains := src.toolchains, policies := none,
                            checks := none } } = tgt := by
    by_cases h0 : toName = ""
    · simp [getHierarchyParentSpec, h0]
    · by_cases hb : tgt.name = toName
      · simp [getHierarchyParentSpec, h0, mapSet, mapGet_cons, hb]
      · simp [getHierarchyParentSpec, h0, mapSet, mapGet_cons, hb, mapGet]
  rw [promoteEnvironment, hf, ht]
  show (getEnvironment
      (buildEnvironmentHierarchy tgt
        [{ name := fromName ++ "-to-" ++ toName, extends_ := some toName,
           overrides := some { description := none, secrets := src.secrets,
                               toolchains := src.toolchains, policies := none,
                               checks := none } }])
      (fromName ++ "-to-" ++ toName), managerRegistry base).1 = _
  have hb2 : buildEnvironmentHierarchy tgt
      [{ name := fromName ++ "-to-" ++ toName, extends_ := some toName,
         overrides := some { description := none, secrets := src.secrets,
                             toolchains := src.toolchains, policies := none,
                             checks := none } }] =
      mapSet (mapSet [] tgt.name tgt) (fromName ++ "-to-" ++ toName)
        (resolveHierarchy tgt (mapSet [] tgt.name tgt)
          { name := fromName ++ "-to-" ++ toName, extends_ := some toName,
            overrides := some { description := none, secrets := src.secrets,
                                toolchains := src.toolchains, policies := none,
                                checks := none } }) := rfl
  rw [hb2, getEnvironment, mapGet_mapSet_self, resolveHierarchy, hpar]
  cases hs : src.secrets <;> cases htc : src.toolchains <;>
    simp [mergeHierarchySpec, hs, htc]

/-- C6 witness: the promotion example of the specification. -/
theorem promotion_result_shape_witness :
    (promoteEnvironment (managerRegistry promoBase) "src" "tgt").1 = some
      { name := "src-to-tgt",
        secrets := some [⟨"vault", "kv/app", none⟩],
        toolchains := some [⟨"node", "20", none⟩],
        policies := some ["P2"],
        environments := some [{ name := "tgt",
                                overrides := some { policies := some ["P2"] } }] } :=
  promotion_result_shape promoBase "src" "tgt" promoBase
    { promoBase with name := "tgt", policies := some ["P2"] } (by decide) (by decide)

/-! ## Registry construction lemmas for C8 and C10 -/

theorem mem_listEnvironments_mapSet (m : Registry) (k k' : String) (v : EnvironmentSpec)
    (h : k' ∈ listEnvironments m) : k' ∈ listEnvironments (mapSet m k v) := by
  rw [listEnvironments_mapSet]
  by_cases hany : m.any (fun p => p.1 == k) = true
  · rw [if_pos hany]; exact h
  · rw [if_neg hany]; exact List.mem_append_left _ h

theorem foldl_buildStep_mem (base : EnvironmentSpec) (hs : List EnvironmentHierarchy)
    (m : Registry) (k : String) (h : k ∈ listEnvironments m) :
    k ∈ listEnvironments (hs.foldl (buildStep base) m) := by
  induction hs generalizing m with
  | nil => exact h
  | cons hd tl ih => exact ih _ (mem_listEnvironments_mapSet _ _ _ _ h)

theorem foldl_buildStep_get_ne (base : EnvironmentSpec) (hs : List EnvironmentHierarchy)
    (m : Registry) (k : String) (hk : ∀ h ∈ hs, h.name ≠ k) :
    mapGet (hs.foldl (buildStep base) m) k = mapGet m k := by
  induction hs generalizing m with
  | nil => rfl
  | cons hd tl ih =>
    rw [List.foldl_cons, ih _ (fun h hh => hk h (List.mem_cons_of_mem _ hh)), buildStep,
      mapGet_mapSet_ne _ _ _ _ (Ne.symm (hk hd (List.mem_cons_self _ _)))]

/-- C8 amended: the registry always contains the base spec's name; and as
long as no declared layer re-uses the base name, `getEnvironment(base.name)`
is the unmodified base spec. -/
theorem base_registry_invariant (base : EnvironmentSpec) (hs : List EnvironmentHierarchy) :
    base.name ∈ listEnvironments (buildEnvironmentHierarchy base hs) ∧
    ((∀ h ∈ hs, h.name ≠ base.name) →
      getEnvironment (buildEnvironmentHierarchy base hs) base.name = some base) := by
  constructor
  · refine foldl_buildStep_mem base hs _ base.name ?_
    simp [mapSet, listEnvironments]
  · intro hk
    show mapGet (hs.foldl (buildStep base) (mapSet [] base.name base)) base.name = some base
    rw [foldl_buildStep_get_ne base hs _ base.name hk, mapGet_mapSet_self]

/-- C8 counterexample: a layer named like the base overwrites the base
entry, so the claimed invariant fails as stated. -/
theorem base_registry_invariant_counterexample :
    getEnvironment (buildEnvironmentHierarchy rebindBase [rebindLayer]) rebindBase.name =
      some { name := "base", description := some "overridden" } ∧
    ¬ (getEnvironment (buildEnvironmentHierarchy rebindBase [rebindLayer]) rebindBase.name =
      some rebindBase) := by
  decide

/-- C8 witness: the amended invariant at a concrete manager whose layers
use fresh names. -/
theorem base_registry_invariant_witness :
    promoBase.name ∈ listEnvironments (managerRegistry promoBase) ∧
    getEnvironment (managerRegistry promoBase) promoBase.name = some promoBase :=
  ⟨(base_registry_invariant promoBase (promoBase.environments.getD [])).1,
    (base_registry_invariant promoBase (promoBase.environments.getD [])).2 (by decide)⟩

theorem mapSet_name_inv (m : Registry) (k : String) (v : EnvironmentSpec)
    (hm : ∀ p ∈ m, (p.2).name = p.1) (hv : v.name = k) :
    ∀ p ∈ mapSet m k v, (p.2).name = p.1 := by
  intro p hp
  rw [mapSet] at hp
  by_cases hany : m.any (fun q => q.1 == k) = true
  · rw [if_pos hany] at hp
    obtain ⟨q, hq, hfq⟩ := List.mem_map.mp hp
    by_cases hqk : q.1 = k
    · rw [if_pos (by simpa using hqk)] at hfq
      rw [← hfq]
      exact hv
    · rw [if_neg (by simpa using hqk)] at hfq
      rw [← hfq]
      exact hm q hq
  · rw [if_neg hany] at hp
    rcases List.mem_append.mp hp with hp | hp
    · exact hm p hp
    · have hpv : p = (k, v) := by simpa using hp
      rw [hpv]
      exact hv

theorem foldl_buildStep_name_inv (base : EnvironmentSpec) (hs : List EnvironmentHierarchy)
    (m : Registry) (hm : ∀ p ∈ m, (p.2).name = p.1) :
    ∀ p ∈ hs.foldl (buildStep base) m, (p.2).name = p.1 := by
  induction hs generalizing m with
  | nil => exact hm
  | cons hd tl ih =>
    exact ih _ (mapSet_name_inv _ _ _ hm (mergeHierarchySpec_name _ hd))

theorem buildRegistry_name_inv (base : EnvironmentSpec) (hs : List EnvironmentHierarchy) :
    ∀ p ∈ buildEnvironmentHierarchy base hs, (p.2).name = p.1 := by
  refine foldl_buildStep_name_inv base hs _ ?_
  intro p hp
  have hpv : p = (base.name, base) := by simpa [mapSet] using hp
  rw [hpv]

/-- C10: every name listed by the registry maps to a spec whose `name`
field is that name. -/
theorem registry_name_consistency (base : EnvironmentSpec) (hs : List EnvironmentHierarchy)
    (n : String) (hn : n ∈ listEnvironments (buildEnvironmentHierarchy base hs)) :
    ∃ s, getEnvironment (buildEnvironmentHierarchy base hs) n = some s ∧ s.name = n := by
  have hn' : n ∈ (buildEnvironmentHierarchy base hs).map (fun p => p.1) := hn
  obtain ⟨p, hp, hpn⟩ := List.mem_map.mp hn'
  have hsome : ((buildEnvironmentHierarchy base hs).find? (fun q => q.1 == n)).isSome :=
    List.find?_isSome.mpr ⟨p, hp, by simp [hpn]⟩
  obtain ⟨q, hq⟩ := Option.isSome_iff_exists.mp hsome
  have hq1 : q.1 = n := by simpa using List.find?_some hq
  have hq2 : q ∈ buildEnvironmentHierarchy base hs := List.mem_of_find?_eq_some hq
  refine ⟨q.2, ?_, ?_⟩
  · show ((buildEnvironmentHierarchy base hs).find? (fun q => q.1 == n)).map
      (fun p => p.2) = some q.2
    rw [hq]
    rfl
  · rw [buildRegistry_name_inv base hs q hq2, hq1]

/-- C10 witness: the layer entry of the promotion example manager. -/
theorem registry_name_consistency_witness :
    ∃ s, getEnvironment (buildEnvironmentHierarchy promoBase
        [{ name := "tgt", overrides := some { policies := some ["P2"] } }]) "tgt" =
      some s ∧ s.name = "tgt" :=
  registry_name_consistency promoBase
    [{ name := "tgt", overrides := some { policies := some ["P2"] } }] "tgt" (by decide)

end Envkit
